import Mathlib

/-!
Verification of the workstate file-selection and archival subsystem.

The definitions below are a shallow embedding of the core of the repository:
`src/services/file_service.py` (select_files, zip_files, unzip,
_resolve_conflict), `src/utils/utils.py` (define_zip_file_name,
format_file_size) and `src/api/commands/save_command.py`
(SaveCommandImpl.execute).  Filesystem paths are modelled as lists of
components, file contents as byte lists, and the filesystem as an
association list from path to content.
-/

namespace Workstate

/-- A filesystem path, modelled as its list of components
(`Path("a/b/c")` becomes `["a", "b", "c"]`). -/
abbrev FPath := List String

/-- File content, modelled as a list of bytes. -/
abbrev Content := List Nat

/-- A set of regular files on disk: an association list from path to content. -/
abbrev FileMap := List (FPath × Content)

/-- Reading a file from disk: first association-list hit, `none` when the
path does not exist (Python raises `FileNotFoundError` there). -/
def lookupFile (fs : FileMap) (p : FPath) : Option Content :=
  match fs with
  | [] => none
  | (q, c) :: rest => if q = p then some c else lookupFile rest p

/-- Python `pathlib.Path.relative_to`: strip `root` as a leading prefix of `p`;
`none` models the `ValueError` raised when `p` is not below `root`. -/
def relativeTo (p root : FPath) : Option FPath :=
  match root, p with
  | [], rest => some rest
  | _ :: _, [] => none
  | r :: root', a :: p' => if a = r then relativeTo p' root' else none

theorem relativeTo_nil (p : FPath) : relativeTo p [] = some p := by
  simp [relativeTo]

theorem relativeTo_append (root rest : FPath) :
    relativeTo (root ++ rest) root = some rest := by
  induction root with
  | nil => simp [relativeTo]
  | cons r root' ih => simp [relativeTo, ih]

theorem append_of_relativeTo {p root rel : FPath}
    (h : relativeTo p root = some rel) : root ++ rel = p := by
  induction root generalizing p with
  | nil => simpa [relativeTo] using h.symm
  | cons r root' ih =>
    cases p with
    | nil => simp [relativeTo] at h
    | cons a p' =>
      by_cases har : a = r
      · subst har
        simp only [relativeTo, if_pos rfl] at h
        simpa using ih h
      · simp [relativeTo, har] at h

theorem relativeTo_inj {p q root rel : FPath}
    (hp : relativeTo p root = some rel) (hq : relativeTo q root = some rel) :
    p = q := by
  rw [← append_of_relativeTo hp, ← append_of_relativeTo hq]

/-! ### Decimal rendering of natural numbers (Python `str(n)` / f-string) -/

/-- The decimal digits of `n`, most significant first. -/
def natDigits (n : Nat) : List Nat :=
  if h : n < 10 then [n]
  else
    have : n / 10 < n := Nat.div_lt_self (by omega) (by omega)
    natDigits (n / 10) ++ [n % 10]

/-- Value of a digit list, most significant first. -/
def digitsVal (l : List Nat) : Nat :=
  l.foldl (fun a d => 10 * a + d) 0

theorem digitsVal_append_single (l : List Nat) (d : Nat) :
    digitsVal (l ++ [d]) = 10 * digitsVal l + d := by
  simp [digitsVal, List.foldl_append]

theorem digitsVal_natDigits (n : Nat) : digitsVal (natDigits n) = n := by
  induction n using Nat.strong_induction_on with
  | _ n ih =>
    by_cases h : n < 10
    · simp [natDigits, h, digitsVal]
    · rw [natDigits]
      rw [dif_neg h, digitsVal_append_single,
        ih (n / 10) (Nat.div_lt_self (by omega) (by omega))]
      omega

theorem natDigits_injective : Function.Injective natDigits := by
  intro a b h
  have := digitsVal_natDigits a
  rw [h, digitsVal_natDigits] at this
  omega

theorem natDigits_lt (n : Nat) : ∀ d ∈ natDigits n, d < 10 := by
  induction n using Nat.strong_induction_on with
  | _ n ih =>
    by_cases h : n < 10
    · simp [natDigits, h]
    · rw [natDigits, dif_neg h]
      intro d hd
      rcases List.mem_append.mp hd with h1 | h2
      · exact ih (n / 10) (Nat.div_lt_self (by omega) (by omega)) d h1
      · simp at h2
        omega

/-- The character of a decimal digit. -/
def digitChar (d : Nat) : Char := Char.ofNat (48 + d)

theorem digitChar_inj_lt :
    ∀ d₁ < 10, ∀ d₂ < 10, digitChar d₁ = digitChar d₂ → d₁ = d₂ := by
  decide

theorem map_digitChar_inj :
    ∀ l₁ l₂ : List Nat, (∀ d ∈ l₁, d < 10) → (∀ d ∈ l₂, d < 10) →
      l₁.map digitChar = l₂.map digitChar → l₁ = l₂ := by
  intro l₁
  induction l₁ with
  | nil =>
    intro l₂ _ _ h
    cases l₂ with
    | nil => rfl
    | cons b l₂' => simp at h
  | cons a l₁' ih =>
    intro l₂ h₁ h₂ h
    cases l₂ with
    | nil => simp at h
    | cons b l₂' =>
      simp only [List.map_cons, List.cons.injEq] at h
      have ha : a = b := by
        refine digitChar_inj_lt a ?_ b ?_ h.1
        · exact h₁ a (by simp)
        · exact h₂ b (by simp)
      have : l₁' = l₂' := by
        refine ih l₂' ?_ ?_ h.2
        · intro d hd
          exact h₁ d (by simp [hd])
        · intro d hd
          exact h₂ d (by simp [hd])
      simp [ha, this]

/-- Python `str(n)` for a natural number. -/
def natRepr (n : Nat) : String := String.mk ((natDigits n).map digitChar)

theorem natRepr_injective : Function.Injective natRepr := by
  intro a b h
  have hdata : (natDigits a).map digitChar = (natDigits b).map digitChar :=
    congrArg String.data h
  exact natDigits_injective
    (map_digitChar_inj _ _ (natDigits_lt a) (natDigits_lt b) hdata)

/-! ### `zip_files` (src/services/file_service.py, lines 71-89)

`zip_files` resolves `root = Path.cwd()`, creates a `NamedTemporaryFile`
with `delete=False`, opens it as a `ZipFile` and, for each input file,
executes `zipf.write(file, arcname=file.relative_to(root))`.  The
`arcname` argument is evaluated first (`ValueError` when the file is not
below the root), then `write` reads the file (`FileNotFoundError` when it
no longer exists).  On any exception the `with` blocks close the partially
written archive, nothing deletes it, and the exception propagates. -/

/-- The Python exceptions the embedded code can raise. -/
inductive PyError where
  | valueError
  | fileNotFoundError
  | uploadError
  | overflowError
  deriving Repr, DecidableEq

/-- One archive entry: root-relative name and byte content. -/
abbrev ZEntry := FPath × Content

/-- The `for file in files` loop of `zip_files`: first component is the
loop's outcome, second the list of entries actually written into the
archive before any failure. -/
def zipWriteLoop (fs : FileMap) (root : FPath) :
    List FPath → Except PyError Unit × List ZEntry
  | [] => (Except.ok (), [])
  | f :: rest =>
    match relativeTo f root with
    | none => (Except.error PyError.valueError, [])
    | some rel =>
      match lookupFile fs f with
      | none => (Except.error PyError.fileNotFoundError, [])
      | some c =>
        let r := zipWriteLoop fs root rest
        (r.1, (rel, c) :: r.2)

/-- What is observable after a call to `zip_files`: the value returned to
the caller (or the exception that propagated), and the temporary archive
file left on disk — `none` would mean no archive file remains. -/
structure ZipOutcome where
  result : Except PyError FPath
  tmpOnDisk : Option (List ZEntry)

/-- The call `zip_files(files)`: `tmp` is the fresh path chosen by
`NamedTemporaryFile`.  The temporary file is created with `delete=False`
and is never unlinked, so it stays on disk on both exit paths. -/
def zip_files (fs : FileMap) (root : FPath) (files : List FPath)
    (tmp : FPath) : ZipOutcome :=
  let r := zipWriteLoop fs root files
  match r.1 with
  | Except.ok _ => ⟨Except.ok tmp, some r.2⟩
  | Except.error e => ⟨Except.error e, some r.2⟩

/-! ### `_resolve_conflict` (src/services/file_service.py, lines 120-146) -/

/-- Python `pathlib` `stem`/`suffix` of a file name: the suffix is `name[i:]`
where `i` is the index of the last dot, provided `0 < i < len(name) - 1`;
otherwise the suffix is empty and the stem is the whole name. -/
def pySplitStemSuffix (name : String) : String × String :=
  let cs := name.data
  match cs.reverse.findIdx? (fun c => c = '.') with
  | none => (name, "")
  | some j =>
    let i := cs.length - 1 - j
    if 0 < i ∧ i < cs.length - 1 then
      (String.mk (cs.take i), String.mk (cs.drop i))
    else (name, "")

/-- The candidate file name tried by `_resolve_conflict` for a given
counter: `f"(stem) ((counter))(suffix)"` when the suffix is nonempty,
`f"(stem) ((counter))"` otherwise. -/
def candidateName (stem suffix : String) (counter : Nat) : String :=
  if suffix ≠ "" then stem ++ " (" ++ natRepr counter ++ ")" ++ suffix
  else stem ++ " (" ++ natRepr counter ++ ")"

theorem candidateName_injective (stem suffix : String) :
    Function.Injective (candidateName stem suffix) := by
  intro k₁ k₂ h
  apply natRepr_injective
  apply String.ext
  by_cases hs : suffix = ""
  · simp only [candidateName, hs, ne_eq, not_true_eq_false, if_false] at h
    have hd := congrArg String.data h
    simp only [String.data_append] at hd
    exact List.append_cancel_left (List.append_cancel_right hd)
  · simp only [candidateName, hs, ne_eq, not_false_eq_true, if_true] at h
    have hd := congrArg String.data h
    simp only [String.data_append] at hd
    exact List.append_cancel_left
      (List.append_cancel_right (List.append_cancel_right hd))

/-- The filesystem state `unzip` acts on: regular files with content, and
directories. -/
structure DiskState where
  files : FileMap
  dirs : List FPath

/-- Python `Path.exists()`: true for a regular file or a directory at `p`. -/
def pathExists (st : DiskState) (p : FPath) : Bool :=
  st.files.any (fun fc => fc.1 = p) || st.dirs.any (fun d => d = p)

theorem pathExists_iff (st : DiskState) (p : FPath) :
    pathExists st p = true ↔
      p ∈ st.files.map Prod.fst ∨ p ∈ st.dirs := by
  simp only [pathExists, Bool.or_eq_true, List.any_eq_true, List.mem_map,
    decide_eq_true_eq]
  constructor
  · rintro (⟨fc, hfc, rfl⟩ | ⟨d, hd, rfl⟩)
    · exact Or.inl ⟨fc, hfc, rfl⟩
    · exact Or.inr hd
  · rintro (⟨fc, hfc, rfl⟩ | hd)
    · exact Or.inl ⟨fc, hfc, rfl⟩
    · exact Or.inr ⟨p, hd, rfl⟩

/-- Counter `n + 1` produces a candidate name not present on disk. -/
def freeCandidate (st : DiskState) (parent : FPath) (stem suffix : String)
    (n : Nat) : Prop :=
  pathExists st (parent ++ [candidateName stem suffix (n + 1)]) = false

instance freeCandidate.decPred (st : DiskState) (parent : FPath)
    (stem suffix : String) : DecidablePred (freeCandidate st parent stem suffix) :=
  fun _ => instDecidableEqBool _ _

theorem freeCandidate_exists (st : DiskState) (parent : FPath)
    (stem suffix : String) : ∃ n, freeCandidate st parent stem suffix n := by
  by_contra hall
  push_neg at hall
  have hmem : ∀ n, (parent ++ [candidateName stem suffix (n + 1)]) ∈
      st.files.map Prod.fst ++ st.dirs := by
    intro n
    have hx : pathExists st (parent ++ [candidateName stem suffix (n + 1)]) = true := by
      have hne := hall n
      simp only [freeCandidate] at hne
      exact eq_true_of_ne_false hne
    rcases (pathExists_iff st _).mp hx with h | h
    · exact List.mem_append.mpr (Or.inl h)
    · exact List.mem_append.mpr (Or.inr h)
  have hinj : Function.Injective
      (fun n => parent ++ [candidateName stem suffix (n + 1)]) := by
    intro a b hab
    have := List.append_cancel_left hab
    simp only [List.cons.injEq] at this
    have := candidateName_injective stem suffix this.1
    omega
  have hsub : Set.range (fun n => parent ++ [candidateName stem suffix (n + 1)]) ⊆
      {x | x ∈ st.files.map Prod.fst ++ st.dirs} := by
    rintro x ⟨n, rfl⟩
    exact hmem n
  exact (Set.infinite_range_of_injective hinj)
    ((st.files.map Prod.fst ++ st.dirs).finite_toSet.subset hsub)

/-- The function `_resolve_conflict(path)`: return `path` when nothing exists there;
otherwise try `parent / candidateName stem suffix counter` for
`counter = 1, 2, …` and return the first candidate that does not exist.
`Nat.find` is exactly the first counter at which the `while True` loop of
the source stops. -/
def resolveConflict (st : DiskState) (p : FPath) : FPath :=
  if pathExists st p = false then p
  else
    match p.getLast? with
    | none => p
    | some name =>
      let stem := (pySplitStemSuffix name).1
      let suffix := (pySplitStemSuffix name).2
      p.dropLast ++ [candidateName stem suffix
        (Nat.find (freeCandidate_exists st p.dropLast stem suffix) + 1)]

/-! ### `unzip` (src/services/file_service.py, lines 92-117) -/

/-- One `ZipInfo` member of the archive being extracted. -/
structure ZipMember where
  name : FPath
  isDir : Bool
  content : Content

/-- The nonempty prefixes of a path: the chain of directories that
`mkdir(parents=True, exist_ok=True)` creates for it. -/
def prefixesNE (p : FPath) : List FPath :=
  (List.range p.length).map (fun i => p.take (i + 1))

/-- Create one directory if not already present. -/
def addDir (st : DiskState) (q : FPath) : DiskState :=
  if q ∈ st.dirs then st else { st with dirs := st.dirs ++ [q] }

/-- Python `d.mkdir(parents=True, exist_ok=True)`. -/
def mkdirParents (st : DiskState) (d : FPath) : DiskState :=
  (prefixesNE d).foldl addDir st

/-- The body of the `for member in zip_ref.infolist()` loop of `unzip`:
directory members are created with `mkdir`; file members get their parent
chain created, their destination resolved by `_resolve_conflict`, and the
member's bytes written at the resolved path. -/
def unzipMember (extractTo : FPath) (st : DiskState) (m : ZipMember) :
    DiskState :=
  let extracted := extractTo ++ m.name
  if m.isDir then mkdirParents st extracted
  else
    let st1 := mkdirParents st extracted.dropLast
    let final := resolveConflict st1 extracted
    { st1 with files := st1.files ++ [(final, m.content)] }

/-- The call `unzip(zip_file)`: extract every member, in archive order, into the
directory `extractTo` (`Path.cwd()` in the source). -/
def unzip (extractTo : FPath) (members : List ZipMember) (st : DiskState) :
    DiskState :=
  members.foldl (unzipMember extractTo) st

/-! ### `select_files` (src/services/file_service.py, lines 46-68)

The gitignore-style matching itself is performed by the external
`pathspec` library (`PathSpec.from_lines("gitwildmatch", …)`), which is a
collaborator, not repository code; it is modelled by an arbitrary
predicate `m` on root-relative paths.  `spec.match_tree(root)` walks the
tree below `root` and yields the root-relative paths of the files that
match the spec. -/

/-- Constant `IGNORE_FILE` of `src/constants/constants.py`. -/
def IGNORE_FILE : String := ".workstateignore"

/-- Constant `DOT_ZIP` of `src/constants/constants.py`. -/
def DOT_ZIP : String := ".zip"

/-- The warning logged by `select_files` when no ignore file exists. -/
def NO_IGNORE_WARNING : String :=
  "No " ++ IGNORE_FILE ++ " file found. All files will be selected."

/-- The call `pathspec.PathSpec.match_tree(root)`: the root-relative paths, in
walk order, of the files below `root` that match the spec `m`. -/
def matchTree (root : FPath) (allFiles : List FPath) (m : FPath → Bool) :
    List FPath :=
  allFiles.filterMap (fun f =>
    match relativeTo f root with
    | some rel => if m rel then some rel else none
    | none => none)

/-- The call `select_files()`: `allFiles` is `[p for p in root.rglob("*") if
p.is_file()]` in traversal order; `ignoreFileExists` is whether
`root / IGNORE_FILE` exists; `m` is the compiled pattern spec.  Returns
the selected files and the warnings logged. -/
def select_files (root : FPath) (allFiles : List FPath)
    (ignoreFileExists : Bool) (m : FPath → Bool) :
    List FPath × List String :=
  if ignoreFileExists then
    let ignored := (matchTree root allFiles m).map (fun p => root ++ p)
    (allFiles.filter (fun f => f ∉ ignored), [])
  else
    (allFiles, [NO_IGNORE_WARNING])

/-! ### `define_zip_file_name` (src/utils/utils.py, lines 18-20) -/

/-- The call `define_zip_file_name(project_name)`: appends `DOT_ZIP` to the name.
The source performs no validation and cannot raise. -/
def define_zip_file_name (project_name : String) : String :=
  project_name ++ DOT_ZIP

/-! ### `format_file_size` (src/utils/utils.py, lines 23-31)

`size = float(size_bytes)` converts an unbounded Python int to an IEEE
binary64 double: the int is rounded to 53 significant bits with ties to
even, and `OverflowError` is raised when the rounded value reaches
`2^1024` — which happens exactly for `size_bytes ≥ 2^1024 - 2^970` (the
midpoint above the largest double `2^1024 - 2^971` rounds up to the even
significand).  The value of a successfully converted double, and of the
subsequent `size /= 1024` steps (exact in binary64 for these normal
values, a mere exponent decrement), is carried as an exact rational.
Python's `f"(size):.1f"` rounds to one decimal digit with ties to
even. -/

/-- CPython `float(n)` for a non-negative int `n`: `OverflowError` at or
above `2^1024 - 2^970`; exact below `2^53`; otherwise the value rounded
to 53 significant bits, ties to even. -/
def natToFloat (n : Nat) : Except PyError ℚ :=
  if 2 ^ 1024 - 2 ^ 970 ≤ n then Except.error PyError.overflowError
  else if n < 2 ^ 53 then Except.ok (n : ℚ)
  else
    let shift := Nat.log2 n - 52
    let d := 2 ^ shift
    let q := n / d
    let r := n % d
    let q2 := if 2 * r < d then q
      else if d < 2 * r then q + 1
      else if q % 2 = 0 then q else q + 1
    Except.ok ((q2 : ℚ) * (2 : ℚ) ^ shift)

/-- Round a nonnegative rational to the nearest integer, ties to even. -/
def roundHalfEven (q : ℚ) : ℤ :=
  if q - ⌊q⌋ < 1 / 2 then ⌊q⌋
  else if 1 / 2 < q - ⌊q⌋ then ⌊q⌋ + 1
  else if ⌊q⌋ % 2 = 0 then ⌊q⌋ else ⌊q⌋ + 1

/-- Python `f"(x):.1f"` for a nonnegative value: one decimal digit. -/
def fmtFixed1 (q : ℚ) : String :=
  let n := (roundHalfEven (10 * q)).toNat
  natRepr (n / 10) ++ "." ++ natRepr (n % 10)

/-- The `for unit in units` loop of `format_file_size`, including the
final `PB` fallback after the loop. -/
def formatLoop (size : ℚ) : List String → String
  | [] => fmtFixed1 size ++ " PB"
  | u :: rest =>
    if size < 1024 then fmtFixed1 size ++ " " ++ u
    else formatLoop (size / 1024) rest

/-- The call `format_file_size(size_bytes)` with `units = ["B", "KB",
"MB", "GB", "TB"]`: `float(size_bytes)` first (so the `OverflowError` it
can raise propagates), then the unit loop. -/
def format_file_size (size_bytes : Nat) : Except PyError String :=
  match natToFloat size_bytes with
  | Except.error e => Except.error e
  | Except.ok size => Except.ok (formatLoop size ["B", "KB", "MB", "GB", "TB"])

/-! ### `SaveCommandImpl.execute` (src/api/commands/save_command.py, lines 36-47)

`execute` selects files, zips them into a temporary file, derives the
remote name, uploads via `state_service.save_state_file` (the external
blob-storage collaborator, modelled by the `upload` parameter), and only
then — on the straight-line path, with no try/finally — calls
`temporary_zip_file.unlink()`.  An exception anywhere skips every later
statement. -/

/-- Outcome of `SaveCommandImpl.execute`: the command's result and the
temporary archive left on disk (`none` = the temporary file was deleted). -/
def save_execute (fs : FileMap) (root : FPath) (allFiles : List FPath)
    (ignoreFileExists : Bool) (m : FPath → Bool) (tmp : FPath)
    (stateName : String) (upload : FPath → String → Except PyError Unit) :
    Except PyError Unit × Option (List ZEntry) :=
  let files_to_save := (select_files root allFiles ignoreFileExists m).1
  let zres := zip_files fs root files_to_save tmp
  match zres.result with
  | Except.error e => (Except.error e, zres.tmpOnDisk)
  | Except.ok tmpPath =>
    let zip_file_name := define_zip_file_name stateName
    match upload tmpPath zip_file_name with
    | Except.error e => (Except.error e, zres.tmpOnDisk)
    | Except.ok _ => (Except.ok (), none)

/-! ### Lemmas about `zipWriteLoop` -/

theorem lookupFile_append_left {l : FileMap} {p : FPath} {c : Content}
    (h : lookupFile l p = some c) (l' : FileMap) :
    lookupFile (l ++ l') p = some c := by
  induction l with
  | nil => simp [lookupFile] at h
  | cons qc rest ih =>
    rw [lookupFile] at h
    by_cases hq : qc.1 = p
    · simpa [lookupFile, hq] using (by simpa [hq] using h)
    · rw [List.cons_append, lookupFile]
      simp only [hq, if_false]
      exact ih (by simpa [hq] using h)

theorem lookupFile_of_nodup {l : FileMap} {p : FPath} {c : Content}
    (hnd : (l.map Prod.fst).Nodup) (hmem : (p, c) ∈ l) :
    lookupFile l p = some c := by
  induction l with
  | nil => simp at hmem
  | cons qc rest ih =>
    simp only [List.map_cons, List.nodup_cons] at hnd
    rcases List.mem_cons.mp hmem with h | h
    · rw [← h]
      simp [lookupFile]
    · have hne : qc.1 ≠ p := by
        intro hq
        exact hnd.1 (hq ▸ List.mem_map.mpr ⟨(p, c), h, rfl⟩)
      rw [lookupFile, if_neg hne]
      exact ih hnd.2 h

/-- Every entry written into the archive, even a partially written one,
comes from an input file that was below the root and readable. -/
theorem zipWriteLoop_sources (fs : FileMap) (root : FPath) :
    ∀ files : List FPath, ∀ en ∈ (zipWriteLoop fs root files).2,
      ∃ g ∈ files, relativeTo g root = some en.1 ∧
        lookupFile fs g = some en.2 := by
  intro files
  induction files with
  | nil => simp [zipWriteLoop]
  | cons f rest ih =>
    intro en hen
    cases hrel : relativeTo f root with
    | none => simp [zipWriteLoop, hrel] at hen
    | some rel =>
      cases hlk : lookupFile fs f with
      | none => simp [zipWriteLoop, hrel, hlk] at hen
      | some c =>
        simp only [zipWriteLoop, hrel, hlk] at hen
        rcases List.mem_cons.mp hen with h | h
        · exact ⟨f, by simp, by simp [hrel, h], by simp [hlk, h]⟩
        · rcases ih en h with ⟨g, hg, h1, h2⟩
          exact ⟨g, by simp [hg], h1, h2⟩

/-- When every input file is below the root and readable, the loop
succeeds and writes exactly one entry per input file, in input order,
keyed by the root-relative path and carrying the file's bytes. -/
theorem zipWriteLoop_ok (fs : FileMap) (root : FPath) :
    ∀ files : List FPath,
      (∀ f ∈ files, ∃ rel c, relativeTo f root = some rel ∧
        lookupFile fs f = some c) →
      (zipWriteLoop fs root files).1 = Except.ok () ∧
      List.Forall₂ (fun f en => relativeTo f root = some en.1 ∧
        lookupFile fs f = some en.2) files (zipWriteLoop fs root files).2 := by
  intro files
  induction files with
  | nil => intro _; simp [zipWriteLoop]
  | cons f rest ih =>
    intro hall
    rcases hall f (by simp) with ⟨rel, c, hrel, hlk⟩
    have hrest := ih (fun g hg => hall g (by simp [hg]))
    refine ⟨?_, ?_⟩
    · simpa [zipWriteLoop, hrel, hlk] using hrest.1
    · simp only [zipWriteLoop, hrel, hlk]
      exact List.Forall₂.cons ⟨hrel, hlk⟩ hrest.2

/-- When every input file is below the root but some input file is
missing on disk, the loop fails with `FileNotFoundError`. -/
theorem zipWriteLoop_error_of_missing (fs : FileMap) (root : FPath) :
    ∀ files : List FPath,
      (∀ g ∈ files, ∃ rel, relativeTo g root = some rel) →
      (∃ f ∈ files, lookupFile fs f = none) →
      (zipWriteLoop fs root files).1 = Except.error PyError.fileNotFoundError := by
  intro files
  induction files with
  | nil => rintro _ ⟨f, hf, _⟩; simp at hf
  | cons g rest ih =>
    rintro hall ⟨f, hf, hmiss⟩
    rcases hall g (by simp) with ⟨rel, hrel⟩
    cases hlk : lookupFile fs g with
    | none => simp [zipWriteLoop, hrel, hlk]
    | some c =>
      have hfrest : f ∈ rest := by
        rcases List.mem_cons.mp hf with h | h
        · rw [h] at hmiss
          rw [hmiss] at hlk
          exact absurd hlk (by simp)
        · exact h
      have := ih (fun x hx => hall x (by simp [hx])) ⟨f, hfrest, hmiss⟩
      simpa [zipWriteLoop, hrel, hlk] using this

/-- When some input file is not below the root, the loop fails. -/
theorem zipWriteLoop_error_of_outside (fs : FileMap) (root : FPath) :
    ∀ files : List FPath, ∀ f ∈ files, relativeTo f root = none →
      ∃ e, (zipWriteLoop fs root files).1 = Except.error e := by
  intro files
  induction files with
  | nil => intro f hf; simp at hf
  | cons g rest ih =>
    intro f hf hout
    cases hrel : relativeTo g root with
    | none => exact ⟨PyError.valueError, by simp [zipWriteLoop, hrel]⟩
    | some rel =>
      have hfrest : f ∈ rest := by
        rcases List.mem_cons.mp hf with h | h
        · rw [h] at hout
          rw [hout] at hrel
          exact absurd hrel (by simp)
        · exact h
      cases hlk : lookupFile fs g with
      | none => exact ⟨PyError.fileNotFoundError, by simp [zipWriteLoop, hrel, hlk]⟩
      | some c =>
        rcases ih f hfrest hout with ⟨e, he⟩
        exact ⟨e, by simpa [zipWriteLoop, hrel, hlk] using he⟩

theorem zip_files_tmpOnDisk (fs : FileMap) (root : FPath)
    (files : List FPath) (tmp : FPath) :
    (zip_files fs root files tmp).tmpOnDisk =
      some (zipWriteLoop fs root files).2 := by
  cases h : (zipWriteLoop fs root files).1 <;> simp [zip_files, h]

theorem zip_files_result_ok {fs : FileMap} {root : FPath}
    {files : List FPath} (tmp : FPath)
    (h : (zipWriteLoop fs root files).1 = Except.ok ()) :
    (zip_files fs root files tmp).result = Except.ok tmp := by
  simp [zip_files, h]

theorem zip_files_result_err {fs : FileMap} {root : FPath}
    {files : List FPath} (tmp : FPath) {e : PyError}
    (h : (zipWriteLoop fs root files).1 = Except.error e) :
    (zip_files fs root files tmp).result = Except.error e := by
  simp [zip_files, h]

/-- C8: for every input list of files below the project root, `zip_files`
writes one archive entry per file, in input order (`List.Forall₂` pairs
the i-th file with the i-th entry), each keyed by the file's path
relative to the root — never by its absolute path (`en.1 ≠ f` whenever
the root is a nonempty path). -/
theorem zip_entries_order_relative (fs : FileMap) (root : FPath)
    (files : List FPath) (tmp : FPath)
    (h : ∀ f ∈ files, ∃ rel c, relativeTo f root = some rel ∧
      lookupFile fs f = some c) :
    ∃ es, (zip_files fs root files tmp).result = Except.ok tmp ∧
      (zip_files fs root files tmp).tmpOnDisk = some es ∧
      List.Forall₂ (fun f en => relativeTo f root = some en.1 ∧
        lookupFile fs f = some en.2 ∧ (root ≠ [] → en.1 ≠ f)) files es := by
  have hok := zipWriteLoop_ok fs root files h
  refine ⟨(zipWriteLoop fs root files).2, zip_files_result_ok tmp hok.1,
    zip_files_tmpOnDisk fs root files tmp, ?_⟩
  refine hok.2.imp ?_
  rintro f en ⟨h1, h2⟩
  refine ⟨h1, h2, fun hroot heq => ?_⟩
  have habs := append_of_relativeTo h1
  rw [heq] at habs
  have : root.length + f.length = f.length := by
    calc root.length + f.length = (root ++ f).length := (List.length_append _ _).symm
    _ = f.length := by rw [habs]
  have : root = [] := by
    have : root.length = 0 := by omega
    exact List.eq_nil_of_length_eq_zero this
  exact hroot this

/-- Witness for C8 at a concrete two-file project. -/
theorem zip_entries_order_relative_witness :
    (∀ f ∈ [["r", "a.txt"], ["r", "b.txt"]], ∃ rel c,
      relativeTo f ["r"] = some rel ∧
      lookupFile [(["r", "a.txt"], [7]), (["r", "b.txt"], [8])] f = some c) ∧
    ∃ es, (zip_files [(["r", "a.txt"], [7]), (["r", "b.txt"], [8])] ["r"]
        [["r", "a.txt"], ["r", "b.txt"]] ["t.zip"]).result =
          Except.ok ["t.zip"] ∧
      (zip_files [(["r", "a.txt"], [7]), (["r", "b.txt"], [8])] ["r"]
        [["r", "a.txt"], ["r", "b.txt"]] ["t.zip"]).tmpOnDisk = some es ∧
      List.Forall₂ (fun f en => relativeTo f ["r"] = some en.1 ∧
        lookupFile [(["r", "a.txt"], [7]), (["r", "b.txt"], [8])] f = some en.2 ∧
        (["r"] ≠ ([] : FPath) → en.1 ≠ f))
        [["r", "a.txt"], ["r", "b.txt"]] es := by
  have h : ∀ f ∈ [["r", "a.txt"], ["r", "b.txt"]], ∃ rel c,
      relativeTo f ["r"] = some rel ∧
      lookupFile [(["r", "a.txt"], [7]), (["r", "b.txt"], [8])] f = some c := by
    intro f hf
    rcases List.mem_cons.mp hf with h | h
    · exact ⟨["a.txt"], [7], by rw [h]; rfl, by rw [h]; rfl⟩
    · simp only [List.mem_singleton] at h
      exact ⟨["b.txt"], [8], by rw [h]; rfl, by rw [h]; rfl⟩
  exact ⟨h, zip_entries_order_relative _ _ _ _ h⟩

/-- C10: `zip_files` presupposes that its inputs lie below the current
working directory: an input path outside the root makes the call raise
(`ValueError` at that path's own turn, or an earlier exception), and no
entry of the archive left on disk — not under any name — ever stems from
that outside path. -/
theorem zip_files_outside_root (fs : FileMap) (root : FPath)
    (files : List FPath) (tmp f : FPath) (hf : f ∈ files)
    (hout : relativeTo f root = none) :
    (∃ e, (zip_files fs root files tmp).result = Except.error e) ∧
    (∀ es en, (zip_files fs root files tmp).tmpOnDisk = some es → en ∈ es →
      ∃ g ∈ files, g ≠ f ∧ relativeTo g root = some en.1 ∧
        lookupFile fs g = some en.2) := by
  constructor
  · rcases zipWriteLoop_error_of_outside fs root files f hf hout with ⟨e, he⟩
    exact ⟨e, zip_files_result_err tmp he⟩
  · intro es en hes hen
    rw [zip_files_tmpOnDisk] at hes
    have hes' : es = (zipWriteLoop fs root files).2 := by
      exact (Option.some.injEq _ _ ▸ hes).symm ▸ (Option.some_inj.mp hes).symm
    rcases zipWriteLoop_sources fs root files en (hes' ▸ hen) with ⟨g, hg, h1, h2⟩
    refine ⟨g, hg, fun hgf => ?_, h1, h2⟩
    rw [hgf, hout] at h1
    exact absurd h1 (by simp)

/-- Witness for C10: one file inside the root, one outside it. -/
theorem zip_files_outside_root_witness :
    (["outside.txt"] : FPath) ∈ [["r", "a.txt"], ["outside.txt"]] ∧
    relativeTo ["outside.txt"] ["r"] = none ∧
    ((∃ e, (zip_files [(["r", "a.txt"], [7])] ["r"]
        [["r", "a.txt"], ["outside.txt"]] ["t.zip"]).result = Except.error e) ∧
     (∀ es en, (zip_files [(["r", "a.txt"], [7])] ["r"]
        [["r", "a.txt"], ["outside.txt"]] ["t.zip"]).tmpOnDisk = some es →
        en ∈ es → ∃ g ∈ [["r", "a.txt"], ["outside.txt"]],
          g ≠ ["outside.txt"] ∧ relativeTo g ["r"] = some en.1 ∧
          lookupFile [(["r", "a.txt"], [7])] g = some en.2)) := by
  refine ⟨by simp, rfl, ?_⟩
  exact zip_files_outside_root _ _ _ _ _ (by simp) rfl

/-- C4 counterexample: archiving a vanished file raises the builtin
`FileNotFoundError` — the repository defines no `ArchiveWriteError` — and
the (here empty) temporary archive file remains on disk rather than being
deleted. -/
theorem zip_files_missing_file_counterexample :
    (zip_files [] [] [["gone.txt"]] ["tmp.zip"]).result =
      Except.error PyError.fileNotFoundError ∧
    (zip_files [] [] [["gone.txt"]] ["tmp.zip"]).tmpOnDisk = some [] := by
  exact ⟨rfl, rfl⟩

/-- C4 (amended): if a source file below the root disappears between
selection and archiving, `zip_files` raises the propagated
`FileNotFoundError` (not an `ArchiveWriteError`, which the repository
never defines), and the partially written temporary archive file remains
on disk (`NamedTemporaryFile(delete=False)` with no cleanup handler). -/
theorem zip_files_missing_file_behavior (fs : FileMap) (root : FPath)
    (files : List FPath) (tmp : FPath)
    (hall : ∀ g ∈ files, ∃ rel, relativeTo g root = some rel)
    (hmiss : ∃ f ∈ files, lookupFile fs f = none) :
    (zip_files fs root files tmp).result =
      Except.error PyError.fileNotFoundError ∧
    ∃ es, (zip_files fs root files tmp).tmpOnDisk = some es := by
  have h := zipWriteLoop_error_of_missing fs root files hall hmiss
  exact ⟨zip_files_result_err tmp h, _, zip_files_tmpOnDisk fs root files tmp⟩

/-- Witness for C4 (amended): a one-file project whose file is gone. -/
theorem zip_files_missing_file_behavior_witness :
    (∀ g ∈ [(["gone.txt"] : FPath)], ∃ rel, relativeTo g [] = some rel) ∧
    (∃ f ∈ [(["gone.txt"] : FPath)], lookupFile [] f = none) ∧
    ((zip_files [] [] [["gone.txt"]] ["t.zip"]).result =
      Except.error PyError.fileNotFoundError ∧
     ∃ es, (zip_files [] [] [["gone.txt"]] ["t.zip"]).tmpOnDisk = some es) := by
  have h1 : ∀ g ∈ [(["gone.txt"] : FPath)], ∃ rel, relativeTo g [] = some rel :=
    fun g _ => ⟨g, relativeTo_nil g⟩
  have h2 : ∃ f ∈ [(["gone.txt"] : FPath)], lookupFile [] f = none :=
    ⟨["gone.txt"], by simp, rfl⟩
  exact ⟨h1, h2, zip_files_missing_file_behavior [] [] [["gone.txt"]] ["t.zip"] h1 h2⟩

/-! ### Lemmas about `select_files` -/

/-- A file below the root is in the absolutized `ignored` set exactly when
its root-relative path matches the ignore spec. -/
theorem mem_ignored_iff (root : FPath) (allFiles : List FPath)
    (m : FPath → Bool) (f rel : FPath)
    (hrel : relativeTo f root = some rel) (hf : f ∈ allFiles) :
    f ∈ (matchTree root allFiles m).map (fun p => root ++ p) ↔ m rel = true := by
  constructor
  · intro hmem
    rcases List.mem_map.mp hmem with ⟨p, hp, hfp⟩
    have hfp' : relativeTo f root = some p := by
      rw [← hfp]
      exact relativeTo_append root p
    have hprel : p = rel := by
      rw [hrel] at hfp'
      exact (Option.some_inj.mp hfp').symm
    rcases List.mem_filterMap.mp hp with ⟨g, _, hgp⟩
    cases hR : relativeTo g root with
    | none => rw [hR] at hgp; simp at hgp
    | some r =>
      rw [hR] at hgp
      by_cases hm : m r
      · have : r = p := by simpa [hm] using hgp
        rw [← hprel, ← this]
        exact hm
      · simp [hm] at hgp
  · intro hm
    refine List.mem_map.mpr ⟨rel, ?_, append_of_relativeTo hrel⟩
    exact List.mem_filterMap.mpr ⟨f, hf, by rw [hrel]; simp [hm]⟩

/-- C2: with an ignore file present, `select_files` returns exactly the
files whose root-relative path does not match the spec, as a sublist of
the traversal order (stable order), and running the selection again on
its own unchanged result returns the same ordered list. -/
theorem select_files_exact_and_stable (root : FPath) (allFiles : List FPath)
    (m : FPath → Bool)
    (hroot : ∀ f ∈ allFiles, ∃ rel, relativeTo f root = some rel) :
    (∀ f rel, relativeTo f root = some rel →
      (f ∈ (select_files root allFiles true m).1 ↔
        f ∈ allFiles ∧ m rel = false)) ∧
    (select_files root allFiles true m).1.Sublist allFiles ∧
    (select_files root ((select_files root allFiles true m).1) true m).1 =
      (select_files root allFiles true m).1 := by
  have hmem : ∀ f rel, relativeTo f root = some rel →
      (f ∈ (select_files root allFiles true m).1 ↔
        f ∈ allFiles ∧ m rel = false) := by
    intro f rel hrel
    simp only [select_files, if_true, List.mem_filter, decide_eq_true_eq]
    constructor
    · rintro ⟨hf, hnig⟩
      refine ⟨hf, ?_⟩
      by_contra hm
      exact hnig ((mem_ignored_iff root allFiles m f rel hrel hf).mpr
        (by simpa using hm))
    · rintro ⟨hf, hm⟩
      refine ⟨hf, fun hig => ?_⟩
      rw [(mem_ignored_iff root allFiles m f rel hrel hf).mp hig] at hm
      exact absurd hm (by simp)
  refine ⟨hmem, ?_, ?_⟩
  · simpa only [select_files, if_true] using
      (List.filter_sublist allFiles)
  · have hsub : ∀ f ∈ (select_files root allFiles true m).1, f ∈ allFiles := by
      intro f hf
      simp only [select_files, if_true, List.mem_filter] at hf
      exact hf.1
    simp only [select_files, if_true]
    apply List.filter_eq_self.mpr
    intro f hf
    rcases hroot f (hsub f hf) with ⟨rel, hrel⟩
    have hnm : m rel = false := by
      have := (hmem f rel hrel).mp (by simpa [select_files] using hf)
      exact this.2
    simp only [decide_eq_true_eq]
    intro hig
    have := (mem_ignored_iff root
      ((select_files root allFiles true m).1) m f rel hrel
      (by simpa [select_files] using hf)).mp (by simpa [select_files] using hig)
    rw [this] at hnm
    exact absurd hnm (by simp)

/-- Witness for C2: root `r` with `a.txt` and `b/c.txt`, spec matching
`b/c.txt`. -/
theorem select_files_exact_and_stable_witness :
    (∀ f ∈ [["r", "a.txt"], ["r", "b", "c.txt"]], ∃ rel,
      relativeTo f ["r"] = some rel) ∧
    ((∀ f rel, relativeTo f ["r"] = some rel →
      (f ∈ (select_files ["r"] [["r", "a.txt"], ["r", "b", "c.txt"]] true
          (fun rel => decide (rel = ["b", "c.txt"]))).1 ↔
        f ∈ [["r", "a.txt"], ["r", "b", "c.txt"]] ∧
          decide (rel = ["b", "c.txt"]) = false)) ∧
     (select_files ["r"] [["r", "a.txt"], ["r", "b", "c.txt"]] true
        (fun rel => decide (rel = ["b", "c.txt"]))).1.Sublist
        [["r", "a.txt"], ["r", "b", "c.txt"]] ∧
     (select_files ["r"] ((select_files ["r"]
          [["r", "a.txt"], ["r", "b", "c.txt"]] true
          (fun rel => decide (rel = ["b", "c.txt"]))).1) true
        (fun rel => decide (rel = ["b", "c.txt"]))).1 =
       (select_files ["r"] [["r", "a.txt"], ["r", "b", "c.txt"]] true
          (fun rel => decide (rel = ["b", "c.txt"]))).1) := by
  have h : ∀ f ∈ [["r", "a.txt"], ["r", "b", "c.txt"]], ∃ rel,
      relativeTo f ["r"] = some rel := by
    intro f hf
    rcases List.mem_cons.mp hf with hh | hh
    · exact ⟨["a.txt"], by rw [hh]; rfl⟩
    · simp only [List.mem_singleton] at hh
      exact ⟨["b", "c.txt"], by rw [hh]; rfl⟩
  exact ⟨h, select_files_exact_and_stable _ _ _ h⟩

/-- C7: with no ignore file, `select_files` accepts every path and logs
the warning instead of raising; and a root with zero files yields the
empty selection whether or not an ignore file exists. -/
theorem select_files_no_ignore_and_empty :
    (∀ (root : FPath) (allFiles : List FPath) (m : FPath → Bool),
      select_files root allFiles false m = (allFiles, [NO_IGNORE_WARNING])) ∧
    (∀ (root : FPath) (ignoreFileExists : Bool) (m : FPath → Bool),
      (select_files root ([] : List FPath) ignoreFileExists m).1 = []) := by
  constructor
  · intro root allFiles m
    simp [select_files]
  · intro root ignoreFileExists m
    cases ignoreFileExists <;> simp [select_files, matchTree]

/-! ### `define_zip_file_name` and the save command -/

/-- C6 counterexample: the snapshot namer does not reject blank labels —
the empty and the all-whitespace label both produce a name (the
repository defines no `InvalidLabelError` at all). -/
theorem define_zip_file_name_blank_counterexample :
    define_zip_file_name "" = ".zip" ∧
    define_zip_file_name "   " = "   .zip" := ⟨rfl, rfl⟩

/-- C6 (amended): for every label, blank ones included, the
snapshot-naming function performs no validation and returns exactly the
label with the archive extension `.zip` appended — no timestamp, no
error. -/
theorem define_zip_file_name_total :
    (∀ label : String, define_zip_file_name label = label ++ ".zip") ∧
    define_zip_file_name "my-project" = "my-project.zip" :=
  ⟨fun _ => rfl, rfl⟩

/-- C5 counterexample: when the upload raises, `SaveCommandImpl.execute`
propagates the error and the temporary archive file is NOT deleted
(`unlink()` is only reached on the straight-line success path). -/
theorem save_execute_leak_counterexample :
    (save_execute [(["a.txt"], [1])] [] [["a.txt"]] false (fun _ => false)
      ["tmp123.zip"] "proj" (fun _ _ => Except.error PyError.uploadError)).1 =
      Except.error PyError.uploadError ∧
    (save_execute [(["a.txt"], [1])] [] [["a.txt"]] false (fun _ => false)
      ["tmp123.zip"] "proj" (fun _ _ => Except.error PyError.uploadError)).2 =
      some [(["a.txt"], [1])] := ⟨rfl, rfl⟩

/-- C5 (amended): provided archiving itself succeeded, the temporary
archive is deleted exactly when the upload succeeds; when the upload
raises, the error propagates and the temporary archive file remains on
disk. -/
theorem save_execute_cleanup (fs : FileMap) (root : FPath)
    (allFiles : List FPath) (ignoreFileExists : Bool) (m : FPath → Bool)
    (tmp : FPath) (stateName : String)
    (upload : FPath → String → Except PyError Unit)
    (hz : (zip_files fs root
        ((select_files root allFiles ignoreFileExists m).1) tmp).result =
      Except.ok tmp) :
    ((save_execute fs root allFiles ignoreFileExists m tmp stateName upload).2 =
        none ↔
      upload tmp (define_zip_file_name stateName) = Except.ok ()) ∧
    (∀ e, upload tmp (define_zip_file_name stateName) = Except.error e →
      (save_execute fs root allFiles ignoreFileExists m tmp stateName upload).1 =
        Except.error e ∧
      (save_execute fs root allFiles ignoreFileExists m tmp stateName upload).2 =
        some (zipWriteLoop fs root
          ((select_files root allFiles ignoreFileExists m).1)).2) := by
  constructor
  · cases hu : upload tmp (define_zip_file_name stateName) with
    | ok u =>
      cases u
      simp [save_execute, hz, hu]
    | error e =>
      simp [save_execute, hz, hu, zip_files_tmpOnDisk]
  · intro e hu
    simp [save_execute, hz, hu, zip_files_tmpOnDisk]

/-- Witness for C5 (amended): a concrete one-file save whose upload
fails. -/
theorem save_execute_cleanup_witness :
    (zip_files [(["a.txt"], [1])] []
        ((select_files [] [["a.txt"]] false (fun _ => false)).1)
        ["tmp123.zip"]).result = Except.ok ["tmp123.zip"] ∧
    (((save_execute [(["a.txt"], [1])] [] [["a.txt"]] false (fun _ => false)
        ["tmp123.zip"] "proj" (fun _ _ => Except.error PyError.uploadError)).2 =
          none ↔ (fun (_ : FPath) (_ : String) =>
            (Except.error PyError.uploadError : Except PyError Unit))
            ["tmp123.zip"] (define_zip_file_name "proj") = Except.ok ()) ∧
     (∀ e, (fun (_ : FPath) (_ : String) =>
          (Except.error PyError.uploadError : Except PyError Unit))
          ["tmp123.zip"] (define_zip_file_name "proj") = Except.error e →
        (save_execute [(["a.txt"], [1])] [] [["a.txt"]] false (fun _ => false)
          ["tmp123.zip"] "proj"
          (fun _ _ => Except.error PyError.uploadError)).1 = Except.error e ∧
        (save_execute [(["a.txt"], [1])] [] [["a.txt"]] false (fun _ => false)
          ["tmp123.zip"] "proj"
          (fun _ _ => Except.error PyError.uploadError)).2 =
          some (zipWriteLoop [(["a.txt"], [1])] []
            ((select_files [] [["a.txt"]] false (fun _ => false)).1)).2)) :=
  ⟨rfl, save_execute_cleanup [(["a.txt"], [1])] [] [["a.txt"]] false
    (fun _ => false) ["tmp123.zip"] "proj"
    (fun _ _ => Except.error PyError.uploadError) rfl⟩

/-! ### Lemmas about `format_file_size` -/

theorem natRepr_lt10 (n : Nat) (h : n < 10) :
    natRepr n = String.mk [digitChar n] := by
  rw [natRepr, natDigits]
  simp [h]

theorem fmtFixed1_shape (q : ℚ) :
    ∃ a b, b < 10 ∧ fmtFixed1 q = natRepr a ++ "." ++ natRepr b :=
  ⟨(roundHalfEven (10 * q)).toNat / 10, (roundHalfEven (10 * q)).toNat % 10,
    Nat.mod_lt _ (by omega), rfl⟩

theorem string_append_space (x u : String) :
    x ++ (" " ++ u) = x ++ " " ++ u :=
  (String.append_assoc x " " u).symm

/-- Every run of the unit loop produces a one-decimal-place string
followed by one of the remaining units or the `PB` fallback. -/
theorem formatLoop_shape (units : List String) :
    ∀ q : ℚ, ∃ a b u, b < 10 ∧ u ∈ units ++ ["PB"] ∧
      formatLoop q units = natRepr a ++ "." ++ natRepr b ++ " " ++ u := by
  induction units with
  | nil =>
    intro q
    rcases fmtFixed1_shape q with ⟨a, b, hb, heq⟩
    refine ⟨a, b, "PB", hb, by simp, ?_⟩
    rw [formatLoop, heq]
    rw [show (" PB" : String) = " " ++ "PB" from rfl]
    exact string_append_space _ _
  | cons u rest ih =>
    intro q
    by_cases hq : q < 1024
    · rcases fmtFixed1_shape q with ⟨a, b, hb, heq⟩
      exact ⟨a, b, u, hb, by simp, by rw [formatLoop, if_pos hq, heq]⟩
    · rcases ih (q / 1024) with ⟨a, b, v, hb, hv, heq⟩
      refine ⟨a, b, v, hb, ?_, by rw [formatLoop, if_neg hq]; exact heq⟩
      rcases List.mem_append.mp hv with h | h
      · exact List.mem_append.mpr (Or.inl (by simp [h]))
      · exact List.mem_append.mpr (Or.inr h)

/-- A byte count below `2^53` is far below the float overflow
threshold. -/
theorem lt_float_threshold {n : Nat} (h : n < 2 ^ 53) :
    ¬ 2 ^ 1024 - 2 ^ 970 ≤ n := by
  intro hle
  have ha : (2 : ℕ) ^ 970 ≤ 2 ^ 1023 :=
    Nat.pow_le_pow_right (by norm_num) (by norm_num)
  have hb : (2 : ℕ) ^ 1024 - 2 ^ 1023 ≤ 2 ^ 1024 - 2 ^ 970 :=
    Nat.sub_le_sub_left ha _
  have hc : (2 : ℕ) ^ 1024 - 2 ^ 1023 = 2 ^ 1023 := by
    have hd : (2 : ℕ) ^ 1024 = 2 ^ 1023 + 2 ^ 1023 := by
      rw [← two_mul, ← pow_succ']
    rw [hd, Nat.add_sub_cancel]
  rw [hc] at hb
  have h2 : (2 : ℕ) ^ 53 ≤ 2 ^ 1023 :=
    Nat.pow_le_pow_right (by norm_num) (by norm_num)
  exact absurd (lt_of_lt_of_le (lt_of_lt_of_le h (h2.trans hb)) hle)
    (lt_irrefl n)

set_option maxRecDepth 8000 in
theorem format_file_size_of_ok {n : Nat} {q : ℚ}
    (h : natToFloat n = Except.ok q) :
    format_file_size n =
      Except.ok (formatLoop q ["B", "KB", "MB", "GB", "TB"]) := by
  rw [format_file_size, h]

set_option maxRecDepth 8000 in
theorem format_file_size_of_err {n : Nat} {e : PyError}
    (h : natToFloat n = Except.error e) :
    format_file_size n = Except.error e := by
  rw [format_file_size, h]

set_option maxRecDepth 8000 in
/-- C9 counterexample: the claim says `format_file_size` never raises on
any non-negative byte count, but `float(size_bytes)` raises
`OverflowError` already at `size_bytes = 2^1024`. -/
theorem format_file_size_overflow_counterexample :
    format_file_size (2 ^ 1024) = Except.error PyError.overflowError :=
  format_file_size_of_err (by rw [natToFloat, if_pos (Nat.sub_le _ _)])

/-- C9 (amended): for every byte count whose `float()` conversion
succeeds (below `2^1024 - 2^970`), `format_file_size` returns a
one-decimal string with one of the binary units `B`, `KB`, `MB`, `GB`,
`TB`, `PB`, and in particular maps `0` to `"0.0 B"`, `1536` to
`"1.5 KB"` and `1073741824` to `"1.0 GB"`; at or above that bound the
`OverflowError` of the float conversion propagates. -/
theorem format_file_size_behavior :
    (∀ (n : Nat) (q : ℚ), natToFloat n = Except.ok q →
      ∃ a b u, b < 10 ∧ u ∈ ["B", "KB", "MB", "GB", "TB", "PB"] ∧
        format_file_size n =
          Except.ok (natRepr a ++ "." ++ natRepr b ++ " " ++ u)) ∧
    format_file_size 0 = Except.ok "0.0 B" ∧
    format_file_size 1536 = Except.ok "1.5 KB" ∧
    format_file_size 1073741824 = Except.ok "1.0 GB" ∧
    (∀ n : Nat, 2 ^ 1024 - 2 ^ 970 ≤ n →
      format_file_size n = Except.error PyError.overflowError) := by
  refine ⟨?_, ?_, ?_, ?_, ?_⟩
  · intro n q hq
    rcases formatLoop_shape ["B", "KB", "MB", "GB", "TB"] q with
      ⟨a, b, u, hb, hu, heq⟩
    exact ⟨a, b, u, hb, hu, by rw [format_file_size_of_ok hq, heq]⟩
  · have h0 : natToFloat 0 = Except.ok ((0 : ℕ) : ℚ) := by
      rw [natToFloat, if_neg (lt_float_threshold (by norm_num)),
        if_pos (by norm_num)]
    have hstr : formatLoop ((0 : ℕ) : ℚ) ["B", "KB", "MB", "GB", "TB"] =
        "0.0 B" := by
      rw [show ((0 : ℕ) : ℚ) = 0 by norm_num]
      rw [formatLoop, if_pos (by norm_num)]
      rw [fmtFixed1, show roundHalfEven (10 * 0) = 0 by
        rw [roundHalfEven]; norm_num]
      rw [show ((0 : ℤ).toNat / 10) = 0 from rfl,
        show ((0 : ℤ).toNat % 10) = 0 from rfl]
      rw [natRepr_lt10 0 (by norm_num)]
      decide
    rw [format_file_size_of_ok h0, hstr]
  · have h1 : natToFloat 1536 = Except.ok ((1536 : ℕ) : ℚ) := by
      rw [natToFloat, if_neg (lt_float_threshold (by norm_num)),
        if_pos (by norm_num)]
    have hstr : formatLoop ((1536 : ℕ) : ℚ) ["B", "KB", "MB", "GB", "TB"] =
        "1.5 KB" := by
      rw [show ((1536 : ℕ) : ℚ) = 1536 by norm_num]
      rw [formatLoop, if_neg (by norm_num)]
      rw [show ((1536 : ℚ) / 1024) = 3 / 2 by norm_num]
      rw [formatLoop, if_pos (by norm_num)]
      rw [fmtFixed1, show roundHalfEven (10 * (3 / 2)) = 15 by
        rw [roundHalfEven]; norm_num]
      rw [show ((15 : ℤ).toNat / 10) = 1 from rfl,
        show ((15 : ℤ).toNat % 10) = 5 from rfl]
      rw [natRepr_lt10 1 (by norm_num), natRepr_lt10 5 (by norm_num)]
      decide
    rw [format_file_size_of_ok h1, hstr]
  · have h2 : natToFloat 1073741824 = Except.ok ((1073741824 : ℕ) : ℚ) := by
      rw [natToFloat, if_neg (lt_float_threshold (by norm_num)),
        if_pos (by norm_num)]
    have hstr : formatLoop ((1073741824 : ℕ) : ℚ)
        ["B", "KB", "MB", "GB", "TB"] = "1.0 GB" := by
      rw [show ((1073741824 : ℕ) : ℚ) = 1073741824 by norm_num]
      rw [formatLoop, if_neg (by norm_num)]
      rw [show ((1073741824 : ℚ) / 1024) = 1048576 by norm_num]
      rw [formatLoop, if_neg (by norm_num)]
      rw [show ((1048576 : ℚ) / 1024) = 1024 by norm_num]
      rw [formatLoop, if_neg (by norm_num)]
      rw [show ((1024 : ℚ) / 1024) = 1 by norm_num]
      rw [formatLoop, if_pos (by norm_num)]
      rw [fmtFixed1, show roundHalfEven (10 * 1) = 10 by
        rw [roundHalfEven]; norm_num]
      rw [show ((10 : ℤ).toNat / 10) = 1 from rfl,
        show ((10 : ℤ).toNat % 10) = 0 from rfl]
      rw [natRepr_lt10 1 (by norm_num), natRepr_lt10 0 (by norm_num)]
      decide
    rw [format_file_size_of_ok h2, hstr]
  · intro n hn
    exact format_file_size_of_err (by rw [natToFloat, if_pos hn])

set_option maxRecDepth 8000 in
/-- Witness for C9 (amended): the successful-conversion branch at `1536`
and the overflow branch at `2^1024`. -/
theorem format_file_size_behavior_witness :
    natToFloat 1536 = Except.ok ((1536 : ℕ) : ℚ) ∧
    (∃ a b u, b < 10 ∧ u ∈ ["B", "KB", "MB", "GB", "TB", "PB"] ∧
      format_file_size 1536 =
        Except.ok (natRepr a ++ "." ++ natRepr b ++ " " ++ u)) ∧
    2 ^ 1024 - 2 ^ 970 ≤ (2 ^ 1024 : ℕ) ∧
    format_file_size (2 ^ 1024) = Except.error PyError.overflowError := by
  have h : natToFloat 1536 = Except.ok ((1536 : ℕ) : ℚ) := by
    rw [natToFloat, if_neg (lt_float_threshold (by norm_num)),
      if_pos (by norm_num)]
  exact ⟨h, format_file_size_behavior.1 1536 _ h, Nat.sub_le _ _,
    format_file_size_behavior.2.2.2.2 _ (Nat.sub_le _ _)⟩

/-! ### Lemmas about directories and `_resolve_conflict` -/

theorem foldl_addDir_files (l : List FPath) :
    ∀ st : DiskState, (l.foldl addDir st).files = st.files := by
  induction l with
  | nil => intro st; rfl
  | cons d rest ih =>
    intro st
    rw [List.foldl_cons, ih]
    by_cases h : d ∈ st.dirs <;> simp [addDir, h]

theorem mem_addDir_dirs (st : DiskState) (d q : FPath) :
    q ∈ (addDir st d).dirs ↔ q ∈ st.dirs ∨ q = d := by
  by_cases h : d ∈ st.dirs
  · simp only [addDir, if_pos h]
    constructor
    · exact Or.inl
    · rintro (hq | rfl)
      · exact hq
      · exact h
  · simp [addDir, h]

theorem mem_foldl_addDir_dirs (l : List FPath) :
    ∀ (st : DiskState) (q : FPath),
      q ∈ (l.foldl addDir st).dirs ↔ q ∈ st.dirs ∨ q ∈ l := by
  induction l with
  | nil => simp
  | cons d rest ih =>
    intro st q
    rw [List.foldl_cons, ih, mem_addDir_dirs]
    simp [List.mem_cons, or_assoc]

theorem mkdirParents_files (st : DiskState) (d : FPath) :
    (mkdirParents st d).files = st.files :=
  foldl_addDir_files _ st

theorem mem_mkdirParents_dirs (st : DiskState) (d q : FPath) :
    q ∈ (mkdirParents st d).dirs ↔ q ∈ st.dirs ∨ q ∈ prefixesNE d :=
  mem_foldl_addDir_dirs _ st q

theorem mem_prefixesNE {d q : FPath} (h : q ∈ prefixesNE d) :
    q <+: d ∧ 1 ≤ q.length ∧ q.length ≤ d.length := by
  rcases List.mem_map.mp h with ⟨i, hi, rfl⟩
  simp only [List.mem_range] at hi
  refine ⟨ List.take_prefix _ _, ?_, ?_⟩
  · rw [List.length_take]; omega
  · rw [List.length_take]; omega

theorem pathExists_mkdirParents (st : DiskState) (d p : FPath) :
    pathExists (mkdirParents st d) p = true ↔
      pathExists st p = true ∨ p ∈ prefixesNE d := by
  rw [pathExists_iff, pathExists_iff, mkdirParents_files,
    mem_mkdirParents_dirs]
  tauto

/-- Creating the parent-directory chain for `p` does not create `p`
itself: all created directories are strictly shorter than `p`. -/
theorem pathExists_mkdirParents_dropLast (st : DiskState) (p : FPath)
    (hp : p ≠ []) :
    pathExists (mkdirParents st p.dropLast) p = pathExists st p := by
  have hiff : pathExists (mkdirParents st p.dropLast) p = true ↔
      pathExists st p = true := by
    rw [pathExists_mkdirParents]
    constructor
    · rintro (h | h)
      · exact h
      · exfalso
        rcases mem_prefixesNE h with ⟨_, _, hlen⟩
        have hdl := List.length_dropLast p
        have hl : 0 < p.length := List.length_pos.mpr hp
        omega
    · exact Or.inl
  cases h1 : pathExists (mkdirParents st p.dropLast) p <;>
    cases h2 : pathExists st p <;> simp_all

theorem resolveConflict_of_free (st : DiskState) (p : FPath)
    (h : pathExists st p = false) : resolveConflict st p = p := by
  rw [resolveConflict, if_pos h]

/-- The `while True` loop of `_resolve_conflict`: when `p` exists, the
returned path is `parent / f"(stem) ((k))(suffix)"` for the smallest
counter `k ≥ 1` whose candidate is free. -/
theorem resolveConflict_spec (st : DiskState) (p : FPath) (nm : String)
    (hex : pathExists st p = true) (hnm : p.getLast? = some nm) :
    ∃ k, 1 ≤ k ∧
      resolveConflict st p = p.dropLast ++
        [candidateName (pySplitStemSuffix nm).1 (pySplitStemSuffix nm).2 k] ∧
      pathExists st (p.dropLast ++
        [candidateName (pySplitStemSuffix nm).1 (pySplitStemSuffix nm).2 k]) =
        false ∧
      ∀ j, 1 ≤ j → j < k →
        pathExists st (p.dropLast ++
          [candidateName (pySplitStemSuffix nm).1 (pySplitStemSuffix nm).2 j]) =
          true := by
  have hne : ¬ pathExists st p = false := by simp [hex]
  refine ⟨Nat.find (freeCandidate_exists st p.dropLast
    (pySplitStemSuffix nm).1 (pySplitStemSuffix nm).2) + 1, by omega, ?_, ?_, ?_⟩
  · rw [resolveConflict, if_neg hne, hnm]
  · have := Nat.find_spec (freeCandidate_exists st p.dropLast
      (pySplitStemSuffix nm).1 (pySplitStemSuffix nm).2)
    simpa [freeCandidate] using this
  · intro j h1 hj
    have hj' : j - 1 < Nat.find (freeCandidate_exists st p.dropLast
        (pySplitStemSuffix nm).1 (pySplitStemSuffix nm).2) := by omega
    have hmin := Nat.find_min (freeCandidate_exists st p.dropLast
      (pySplitStemSuffix nm).1 (pySplitStemSuffix nm).2) hj'
    simp only [freeCandidate] at hmin
    have heq : j - 1 + 1 = j := by omega
    rw [heq] at hmin
    exact eq_true_of_ne_false hmin

/-! ### Lemmas about `unzip` -/

theorem unzipMember_preserves (extractTo : FPath) (st : DiskState)
    (m : ZipMember) (p : FPath) (c : Content)
    (h : lookupFile st.files p = some c) :
    lookupFile (unzipMember extractTo st m).files p = some c := by
  rw [unzipMember]
  by_cases hd : m.isDir = true
  · simp only [hd, if_true]
    rw [mkdirParents_files]
    exact h
  · simp only [hd, if_false]
    rw [mkdirParents_files]
    exact lookupFile_append_left h _

theorem unzip_preserves (extractTo : FPath) (members : List ZipMember) :
    ∀ (st : DiskState) (p : FPath) (c : Content),
      lookupFile st.files p = some c →
      lookupFile (unzip extractTo members st).files p = some c := by
  induction members with
  | nil => intro st p c h; exact h
  | cons m rest ih =>
    intro st p c h
    exact ih _ p c (unzipMember_preserves extractTo st m p c h)

/-- Extracting one fresh file member writes its bytes at its own name and
only creates parent directories besides. -/
theorem unzipMember_fresh (st : DiskState) (m : ZipMember)
    (hd : m.isDir = false) (hn : m.name ≠ [])
    (hf : pathExists st m.name = false) :
    (unzipMember [] st m).files = st.files ++ [(m.name, m.content)] ∧
    ∀ q, q ∈ (unzipMember [] st m).dirs ↔
      q ∈ st.dirs ∨ q ∈ prefixesNE m.name.dropLast := by
  have hex : pathExists (mkdirParents st m.name.dropLast) m.name = false := by
    rw [pathExists_mkdirParents_dropLast st m.name hn]
    exact hf
  constructor
  · simp only [unzipMember, hd, Bool.false_eq_true, if_false, List.nil_append]
    rw [resolveConflict_of_free _ _ hex, mkdirParents_files]
  · intro q
    simp only [unzipMember, hd, Bool.false_eq_true, if_false, List.nil_append]
    exact mem_mkdirParents_dirs st _ q

/-- Extracting a list of file members whose names are pairwise
non-nested and all fresh appends exactly one file per member, at the
member's own name, in archive order. -/
theorem unzip_fresh (members : List ZipMember) :
    ∀ st : DiskState,
      (∀ m ∈ members, m.isDir = false) →
      (∀ m ∈ members, m.name ≠ []) →
      List.Pairwise (fun a b => ¬ a.name <+: b.name ∧ ¬ b.name <+: a.name)
        members →
      (∀ m ∈ members, pathExists st m.name = false) →
      (unzip [] members st).files =
        st.files ++ members.map (fun m => (m.name, m.content)) := by
  induction members with
  | nil => intro st _ _ _ _; simp [unzip]
  | cons m rest ih =>
    intro st hdir hname hpw hfresh
    obtain ⟨hfl, hdirs⟩ := unzipMember_fresh st m (hdir m (by simp))
      (hname m (by simp)) (hfresh m (by simp))
    have hpw' := List.pairwise_cons.mp hpw
    have hrest_fresh : ∀ m' ∈ rest,
        pathExists (unzipMember [] st m) m'.name = false := by
      intro m' hm'
      have hfr : pathExists st m'.name = false := hfresh m' (by simp [hm'])
      have hR := hpw'.1 m' hm'
      cases hval : pathExists (unzipMember [] st m) m'.name
      · rfl
      · exfalso
        rcases (pathExists_iff _ _).mp hval with hmem | hmem
        · rw [hfl] at hmem
          rw [List.map_append] at hmem
          rcases List.mem_append.mp hmem with h | h
          · have : pathExists st m'.name = true :=
              (pathExists_iff st m'.name).mpr (Or.inl h)
            rw [this] at hfr
            exact absurd hfr (by simp)
          · simp only [List.map_cons, List.map_nil, List.mem_singleton] at h
            exact hR.2 (h ▸ List.prefix_refl _)
        · rcases (hdirs m'.name).mp hmem with h | h
          · have : pathExists st m'.name = true :=
              (pathExists_iff st m'.name).mpr (Or.inr h)
            rw [this] at hfr
            exact absurd hfr (by simp)
          · rcases mem_prefixesNE h with ⟨hpre, _, _⟩
            exact hR.2 (hpre.trans ( List.dropLast_prefix m.name))
    have hstep : unzip [] (m :: rest) st = unzip [] rest (unzipMember [] st m) :=
      rfl
    rw [hstep, ih _ (fun x hx => hdir x (by simp [hx]))
      (fun x hx => hname x (by simp [hx])) hpw'.2 hrest_fresh, hfl]
    simp

/-! ### `Forall₂` helpers -/

theorem forall₂_mem_right {α β : Type} {R : α → β → Prop}
    {l₁ : List α} {l₂ : List β} (h : List.Forall₂ R l₁ l₂) :
    ∀ b ∈ l₂, ∃ a ∈ l₁, R a b := by
  induction h with
  | nil => intro b hb; simp at hb
  | cons hab htail ih =>
    intro b hb
    rcases List.mem_cons.mp hb with h1 | h1
    · exact ⟨_, by simp, h1 ▸ hab⟩
    · rcases ih b h1 with ⟨a, ha, hR⟩
      exact ⟨a, by simp [ha], hR⟩

theorem forall₂_mem_left {α β : Type} {R : α → β → Prop}
    {l₁ : List α} {l₂ : List β} (h : List.Forall₂ R l₁ l₂) :
    ∀ a ∈ l₁, ∃ b ∈ l₂, R a b := by
  induction h with
  | nil => intro a ha; simp at ha
  | cons hab htail ih =>
    intro a ha
    rcases List.mem_cons.mp ha with h1 | h1
    · exact ⟨_, by simp, h1 ▸ hab⟩
    · rcases ih a h1 with ⟨b, hb, hR⟩
      exact ⟨b, by simp [hb], hR⟩

theorem pairwise_of_forall₂ {α β : Type} {R : α → β → Prop}
    {P : α → α → Prop} {Q : β → β → Prop}
    (himp : ∀ a b a2 b2, R a b → R a2 b2 → P a a2 → Q b b2) :
    ∀ {l₁ : List α} {l₂ : List β}, List.Forall₂ R l₁ l₂ →
      List.Pairwise P l₁ → List.Pairwise Q l₂ := by
  intro l₁ l₂ h
  induction h with
  | nil => intro _; exact List.Pairwise.nil
  | cons hab htail ih =>
    intro hp
    rcases List.pairwise_cons.mp hp with ⟨hpa, hptail⟩
    refine List.Pairwise.cons ?_ (ih hptail)
    intro b' hb'
    rcases forall₂_mem_right htail b' hb' with ⟨a', ha', hR⟩
    exact himp _ _ _ _ hab hR (hpa a' ha')

/-- C3: extraction never overwrites: any file already on disk keeps its
path and content across a whole `unzip` run (first conjunct); and a file
member whose destination already exists is written instead to
`parent / "stem (k)suffix"` for the smallest counter `k ≥ 1` whose
candidate name is free, the pre-existing files staying untouched (second
conjunct, one loop step). -/
theorem unzip_no_overwrite_disambiguates :
    (∀ (extractTo : FPath) (members : List ZipMember) (st : DiskState)
        (p : FPath) (c : Content),
      (∀ m ∈ members, m.name ≠ []) →
      lookupFile st.files p = some c →
      lookupFile (unzip extractTo members st).files p = some c) ∧
    (∀ (st : DiskState) (m : ZipMember) (nm : String),
      m.isDir = false → m.name.getLast? = some nm →
      pathExists st m.name = true →
      ∃ k, 1 ≤ k ∧
        (unzipMember [] st m).files = st.files ++
          [(m.name.dropLast ++ [candidateName (pySplitStemSuffix nm).1
            (pySplitStemSuffix nm).2 k], m.content)] ∧
        pathExists (mkdirParents st m.name.dropLast)
          (m.name.dropLast ++ [candidateName (pySplitStemSuffix nm).1
            (pySplitStemSuffix nm).2 k]) = false ∧
        ∀ j, 1 ≤ j → j < k →
          pathExists (mkdirParents st m.name.dropLast)
            (m.name.dropLast ++ [candidateName (pySplitStemSuffix nm).1
              (pySplitStemSuffix nm).2 j]) = true) := by
  constructor
  · exact fun extractTo members st p c _ h =>
      unzip_preserves extractTo members st p c h
  · intro st m nm hd hnm hex
    have hne : m.name ≠ [] := by
      intro h
      rw [h] at hnm
      simp [List.getLast?] at hnm
    have hex1 : pathExists (mkdirParents st m.name.dropLast) m.name = true := by
      rw [pathExists_mkdirParents_dropLast st m.name hne]
      exact hex
    rcases resolveConflict_spec (mkdirParents st m.name.dropLast) m.name nm
      hex1 hnm with ⟨k, hk, heq, hfree, hmin⟩
    refine ⟨k, hk, ?_, hfree, hmin⟩
    simp only [unzipMember, hd, Bool.false_eq_true, if_false, List.nil_append]
    rw [heq, mkdirParents_files]

/-- Witness for C3: extracting `a.txt` over an existing `a.txt` writes
`a (1).txt` and leaves the original bytes readable. -/
theorem unzip_no_overwrite_disambiguates_witness :
    ((∀ m ∈ [ZipMember.mk ["a.txt"] false [5]], m.name ≠ []) ∧
     lookupFile [(["a.txt"], [9])] ["a.txt"] = some [9] ∧
     lookupFile (unzip [] [ZipMember.mk ["a.txt"] false [5]]
        (DiskState.mk [(["a.txt"], [9])] [])).files ["a.txt"] = some [9]) ∧
    ((ZipMember.mk ["a.txt"] false [5]).isDir = false ∧
     (ZipMember.mk ["a.txt"] false [5]).name.getLast? = some "a.txt" ∧
     pathExists (DiskState.mk [(["a.txt"], [9])] []) ["a.txt"] = true ∧
     ∃ k, 1 ≤ k ∧
        (unzipMember [] (DiskState.mk [(["a.txt"], [9])] [])
            (ZipMember.mk ["a.txt"] false [5])).files =
          [(["a.txt"], [9])] ++
          [((["a.txt"] : FPath).dropLast ++
            [candidateName (pySplitStemSuffix "a.txt").1
              (pySplitStemSuffix "a.txt").2 k], [5])] ∧
        pathExists (mkdirParents (DiskState.mk [(["a.txt"], [9])] [])
            (["a.txt"] : FPath).dropLast)
          ((["a.txt"] : FPath).dropLast ++
            [candidateName (pySplitStemSuffix "a.txt").1
              (pySplitStemSuffix "a.txt").2 k]) = false ∧
        ∀ j, 1 ≤ j → j < k →
          pathExists (mkdirParents (DiskState.mk [(["a.txt"], [9])] [])
              (["a.txt"] : FPath).dropLast)
            ((["a.txt"] : FPath).dropLast ++
              [candidateName (pySplitStemSuffix "a.txt").1
                (pySplitStemSuffix "a.txt").2 j]) = true) := by
  refine ⟨⟨by simp, rfl, unzip_no_overwrite_disambiguates.1 [] _ _ _ _
      (by simp) rfl⟩,
    rfl, rfl, rfl, unzip_no_overwrite_disambiguates.2
      (DiskState.mk [(["a.txt"], [9])] []) (ZipMember.mk ["a.txt"] false [5])
      "a.txt" rfl rfl rfl⟩

/-- C1: archiving a list of files below the root and extracting the
resulting archive into an initially empty directory restores every file,
byte-identical, at its root-relative path.  The hypotheses state that the
inputs form a real file tree: each file lies strictly below the root with
readable content, and no listed path equals or nests inside another. -/
theorem roundtrip_extract_zip (fs : FileMap) (root : FPath) (F : List FPath)
    (tmp : FPath)
    (hF : ∀ f ∈ F, ∃ rel c, relativeTo f root = some rel ∧ rel ≠ [] ∧
      lookupFile fs f = some c)
    (hPW : List.Pairwise (fun f g => ¬ f <+: g ∧ ¬ g <+: f) F) :
    ∃ es, (zip_files fs root F tmp).result = Except.ok tmp ∧
      (zip_files fs root F tmp).tmpOnDisk = some es ∧
      ∀ f ∈ F, ∃ rel c, relativeTo f root = some rel ∧
        lookupFile fs f = some c ∧
        lookupFile (unzip [] (es.map (fun e => ZipMember.mk e.1 false e.2))
          (DiskState.mk [] [])).files rel = some c := by
  have hF' : ∀ f ∈ F, ∃ rel c, relativeTo f root = some rel ∧
      lookupFile fs f = some c := by
    intro f hf
    rcases hF f hf with ⟨rel, c, h1, _, h3⟩
    exact ⟨rel, c, h1, h3⟩
  have hok := zipWriteLoop_ok fs root F hF'
  refine ⟨(zipWriteLoop fs root F).2, zip_files_result_ok tmp hok.1,
    zip_files_tmpOnDisk fs root F tmp, ?_⟩
  have hQ : List.Pairwise (fun e1 e2 : ZEntry =>
      ¬ e1.1 <+: e2.1 ∧ ¬ e2.1 <+: e1.1) (zipWriteLoop fs root F).2 := by
    refine pairwise_of_forall₂ ?_ hok.2 hPW
    rintro a b a2 b2 ⟨hR1, _⟩ ⟨hR2, _⟩ hP
    have ha := append_of_relativeTo hR1
    have ha2 := append_of_relativeTo hR2
    constructor
    · rintro ⟨t, ht⟩
      refine hP.1 ⟨t, ?_⟩
      rw [← ha, ← ha2, List.append_assoc, ht]
    · rintro ⟨t, ht⟩
      refine hP.2 ⟨t, ?_⟩
      rw [← ha, ← ha2, List.append_assoc, ht]
  have hnames : ∀ e ∈ (zipWriteLoop fs root F).2, (e : ZEntry).1 ≠ [] := by
    intro e he
    rcases forall₂_mem_right hok.2 e he with ⟨f, hf, hR⟩
    rcases hF f hf with ⟨rel, c, h1, h2, _⟩
    rw [hR.1] at h1
    rw [Option.some_inj.mp h1]
    exact h2
  have hfiles : (unzip []
      ((zipWriteLoop fs root F).2.map (fun e => ZipMember.mk e.1 false e.2))
      (DiskState.mk [] [])).files = (zipWriteLoop fs root F).2 := by
    rw [unzip_fresh]
    · simp only [List.map_map, List.nil_append]
      exact List.map_id _
    · intro m hm
      rcases List.mem_map.mp hm with ⟨e, _, rfl⟩
      rfl
    · intro m hm
      rcases List.mem_map.mp hm with ⟨e, he, rfl⟩
      exact hnames e he
    · rw [List.pairwise_map]
      exact hQ
    · intro m _
      rfl
  have hnodup : ((zipWriteLoop fs root F).2.map Prod.fst).Nodup := by
    have hpw : List.Pairwise (fun a b : FPath => a ≠ b)
        ((zipWriteLoop fs root F).2.map Prod.fst) := by
      rw [List.pairwise_map]
      refine hQ.imp ?_
      intro e1 e2 h heq
      apply h.1
      rw [heq]
    exact hpw
  intro f hf
  rcases forall₂_mem_left hok.2 f hf with ⟨e, he, hR⟩
  refine ⟨e.1, e.2, hR.1, hR.2, ?_⟩
  rw [hfiles]
  apply lookupFile_of_nodup hnodup
  rw [Prod.mk.eta]
  exact he

/-- Witness for C1: a two-file project (`a.txt` and `b/c.txt`) archived
and extracted into an empty directory. -/
theorem roundtrip_extract_zip_witness :
    (∀ f ∈ [["r", "a.txt"], ["r", "b", "c.txt"]], ∃ rel c,
      relativeTo f ["r"] = some rel ∧ rel ≠ [] ∧
      lookupFile [(["r", "a.txt"], [1]), (["r", "b", "c.txt"], [2])] f =
        some c) ∧
    List.Pairwise (fun f g => ¬ f <+: g ∧ ¬ g <+: f)
      [["r", "a.txt"], ["r", "b", "c.txt"]] ∧
    ∃ es, (zip_files [(["r", "a.txt"], [1]), (["r", "b", "c.txt"], [2])]
        ["r"] [["r", "a.txt"], ["r", "b", "c.txt"]] ["t.zip"]).result =
        Except.ok ["t.zip"] ∧
      (zip_files [(["r", "a.txt"], [1]), (["r", "b", "c.txt"], [2])]
        ["r"] [["r", "a.txt"], ["r", "b", "c.txt"]] ["t.zip"]).tmpOnDisk =
        some es ∧
      ∀ f ∈ [["r", "a.txt"], ["r", "b", "c.txt"]], ∃ rel c,
        relativeTo f ["r"] = some rel ∧
        lookupFile [(["r", "a.txt"], [1]), (["r", "b", "c.txt"], [2])] f =
          some c ∧
        lookupFile (unzip [] (es.map (fun e => ZipMember.mk e.1 false e.2))
          (DiskState.mk [] [])).files rel = some c := by
  have h1 : ∀ f ∈ [["r", "a.txt"], ["r", "b", "c.txt"]], ∃ rel c,
      relativeTo f ["r"] = some rel ∧ rel ≠ [] ∧
      lookupFile [(["r", "a.txt"], [1]), (["r", "b", "c.txt"], [2])] f =
        some c := by
    intro f hf
    rcases List.mem_cons.mp hf with h | h
    · exact ⟨["a.txt"], [1], by rw [h]; rfl, by simp, by rw [h]; rfl⟩
    · simp only [List.mem_singleton] at h
      exact ⟨["b", "c.txt"], [2], by rw [h]; rfl, by simp, by rw [h]; rfl⟩
  have h2 : List.Pairwise (fun f g => ¬ f <+: g ∧ ¬ g <+: f)
      [["r", "a.txt"], ["r", "b", "c.txt"]] := by decide
  exact ⟨h1, h2, roundtrip_extract_zip _ _ _ _ h1 h2⟩

end Workstate
